import Mathlib

/-!
Verification of `spellbook/network/cascade.py`: the Independent Cascade
simulator (`independent_cascade`), the Monte Carlo spread estimator
(`estimate_spread`), the CELF influence-maximization selector (`celf`) and
its legacy variant (`_celf_deprecated`).

Modelling conventions.
* Node identifiers are `Nat`; a NetworkX `DiGraph` is a `Graph`: a node
  list, a directed edge list, and a partial edge-attribute map
  `prob : Nat → Nat → Option Rat` standing for `G[u][v][prob_attr]`
  (`none` models a `KeyError`, i.e. an edge lacking the attribute).
* Python's global `random.random()` stream is an explicit oracle
  `rng : Nat → Rat` together with a running index: the draw for the
  `i`-th call is `rng i`, and every function threads the next unused
  index.  "Randomness consumed" is the difference of indices.
* Python exceptions become an `Except PyErr` result; `PyErr`
  distinguishes `ValueError` (spec `InvalidArgument`), `ZeroDivisionError`
  and `IndexError` (raised by `heapq.heappop` on an empty heap).
* The simulator result carries ghost instrumentation that Python does not
  return but the code manifestly computes: the final rng index, the number
  of rounds that produced activations, and the list of activation
  attempts, each tagged with the active set at the moment of the attempt.
* Python `set` iteration order is unspecified; the model fixes a concrete
  order (sorted seeds, first-insertion order for frontiers).  Every
  theorem below is insensitive to that choice.
* `heapq` is modelled as an ordered insert into a list kept sorted by the
  tuple order on `(negated gain, node, stamp)`; since distinct entries
  always differ in some component, pop-min order agrees with `heapq`.
* The unbounded `while` loops of `celf` / `_celf_deprecated` take explicit
  fuel and return `none` when the fuel is exhausted, so `none` for every
  fuel models non-termination.
-/

namespace Cascade

/-- A directed graph as used by `cascade.py`: node list, directed edge
list, and the per-edge probability attribute (`none` = attribute absent,
the Python `KeyError` case). -/
structure Graph where
  nodes : List Nat
  edges : List (Nat × Nat)
  prob : Nat → Nat → Option Rat

/-- Python exceptions raised by the code under study. -/
inductive PyErr where
  | valueError (msg : String)
  | zeroDivisionError
  | indexError
  deriving DecidableEq

/-- `G.successors(u)`: targets of the edges leaving `u`, in edge-list
order. -/
def successors (G : Graph) (u : Nat) : List Nat :=
  (G.edges.filter (fun e => e.fst == u)).map Prod.snd

/-- The probability used for an activation attempt over `(u, v)`:
`G[u][v][prob_attr]` if the attribute is present, else `default_prob`
(the `try ... except KeyError` of lines 105-108). -/
def edgeProb (G : Graph) (default_prob : Rat) (u v : Nat) : Rat :=
  (G.prob u v).getD default_prob

/-- Result of one simulation run, with ghost instrumentation: `rounds`
counts the rounds that produced new activations (one snapshot appended
per such round), `attempts` records every activation attempt as the
attempted edge paired with the active set at that moment, and `idx` is
the rng index after the run (so `idx - initial idx` = draws consumed). -/
structure SimResult where
  active : Finset Nat
  steps : List (Finset Nat)
  rounds : Nat
  attempts : List ((Nat × Nat) × Finset Nat)
  idx : Nat
  deriving DecidableEq

/-- Inner loop over the successors `vs` of one frontier node `u`
(lines 102-112): skip targets already in `active`; otherwise consume one
draw and record a hit when `rng idx < p`.  Returns the list of hits, the
attempt trace and the next rng index. -/
def attemptSuccessors (G : Graph) (default_prob : Rat) (rng : Nat → Rat)
    (active : Finset Nat) (u : Nat) :
    List Nat → Nat → List Nat × List ((Nat × Nat) × Finset Nat) × Nat
  | [], idx => ([], [], idx)
  | v :: vs, idx =>
    if v ∈ active then attemptSuccessors G default_prob rng active u vs idx
    else
      let rest := attemptSuccessors G default_prob rng active u vs (idx + 1)
      (if rng idx < edgeProb G default_prob u v then v :: rest.1 else rest.1,
       ((u, v), active) :: rest.2.1,
       rest.2.2)

/-- One round of the cascade (lines 97-112): every node of the frontier
attempts its successors in turn. -/
def runRound (G : Graph) (default_prob : Rat) (rng : Nat → Rat)
    (active : Finset Nat) :
    List Nat → Nat → List Nat × List ((Nat × Nat) × Finset Nat) × Nat
  | [], idx => ([], [], idx)
  | u :: us, idx =>
    let a := attemptSuccessors G default_prob rng active u (successors G u) idx
    let b := runRound G default_prob rng active us a.2.2
    (a.1 ++ b.1, a.2.1 ++ b.2.1, b.2.2)

/-- The `for _ in range(max_steps)` loop of lines 93-121: run a round; if
it produced no activation stop, otherwise absorb the new frontier into
`active`, append a snapshot, and continue. -/
def simLoop (G : Graph) (default_prob : Rat) (rng : Nat → Rat) :
    Nat → Finset Nat → List Nat → List (Finset Nat) → Nat →
    List ((Nat × Nat) × Finset Nat) → Nat → SimResult
  | 0, active, _, steps, rounds, att, idx => ⟨active, steps, rounds, att, idx⟩
  | fuel + 1, active, frontier, steps, rounds, att, idx =>
    let r := runRound G default_prob rng active frontier idx
    let newly := r.1.dedup
    if newly.isEmpty then ⟨active, steps, rounds, att ++ r.2.1, r.2.2⟩
    else
      simLoop G default_prob rng fuel (active ∪ newly.toFinset) newly
        (steps ++ [active ∪ newly.toFinset]) (rounds + 1) (att ++ r.2.1) r.2.2

/-- `independent_cascade` (lines 12-123): validate, then simulate.  The
three validations happen in source order, before any randomness is
consumed. -/
def independent_cascade (G : Graph) (seeds : Finset Nat) (max_steps : Nat)
    (default_prob : Rat) (rng : Nat → Rat) (idx : Nat) :
    Except PyErr SimResult :=
  if seeds = ∅ then .error (.valueError "Seeds set cannot be empty")
  else if ¬ (∀ s ∈ seeds, s ∈ G.nodes) then
    .error (.valueError "All seed nodes must exist in the graph")
  else if ¬ (0 ≤ default_prob ∧ default_prob ≤ 1) then
    .error (.valueError "default_prob must be between 0 and 1")
  else
    .ok (simLoop G default_prob rng max_steps seeds
      (seeds.sort (· ≤ ·)) [seeds] 0 [] idx)

/-- The generator `sum(len(independent_cascade(...)[0]) for _ in range(mc))`
of line 127: run the trials in sequence on the shared rng stream, adding
up the activated-set sizes. -/
def sumTrials (G : Graph) (seeds : Finset Nat) (max_steps : Nat)
    (default_prob : Rat) (rng : Nat → Rat) :
    Nat → Nat → Except PyErr (Rat × Nat)
  | 0, idx => .ok (0, idx)
  | m + 1, idx =>
    match independent_cascade G seeds max_steps default_prob rng idx with
    | .error e => .error e
    | .ok r =>
      match sumTrials G seeds max_steps default_prob rng m r.idx with
      | .error e => .error e
      | .ok si => .ok ((r.active.card : Rat) + si.1, si.2)

/-- `estimate_spread` (lines 125-127): the sum over `mc` trials is fully
evaluated first, then divided by `mc`; Python's `/` raises
`ZeroDivisionError` when `mc = 0`. -/
def estimate_spread (G : Graph) (seeds : List Nat) (mc max_steps : Nat)
    (default_prob : Rat) (rng : Nat → Rat) (idx : Nat) :
    Except PyErr (Rat × Nat) :=
  match sumTrials G seeds.toFinset max_steps default_prob rng mc idx with
  | .error e => .error e
  | .ok si => if mc = 0 then .error .zeroDivisionError else .ok (si.1 / mc, si.2)

/-- A CELF priority-queue entry, Python's tuple
`(-gain, node, iteration)`. -/
structure Entry where
  negGain : Rat
  node : Nat
  stamp : Nat
  deriving DecidableEq

/-- Tuple order on entries, as Python compares
`(-gain, node, iteration)` lexicographically. -/
def Entry.leb (a b : Entry) : Bool :=
  if a.negGain = b.negGain then
    if a.node = b.node then decide (a.stamp ≤ b.stamp)
    else decide (a.node < b.node)
  else decide (a.negGain < b.negGain)

/-- `heapq.heappush`, modelled as ordered insert into a sorted list; the
head of the list is the entry `heapq.heappop` returns. -/
def heappush (pq : List Entry) (e : Entry) : List Entry :=
  match pq with
  | [] => [e]
  | x :: xs => if e.leb x then e :: x :: xs else x :: heappush xs e

/-- Step 1 of `celf` (lines 194-197): one spread estimate per node, pushed
with stamp 0. -/
def celfInit (G : Graph) (default_prob : Rat) (mc max_steps : Nat)
    (rng : Nat → Rat) :
    List Nat → List Entry → Nat → Except PyErr (List Entry × Nat)
  | [], pq, idx => .ok (pq, idx)
  | n :: ns, pq, idx =>
    match estimate_spread G [n] mc max_steps default_prob rng idx with
    | .error e => .error e
    | .ok si =>
      celfInit G default_prob mc max_steps rng ns (heappush pq ⟨-si.1, n, 0⟩) si.2

/-- Step 2 of `celf` (lines 199-216), with fuel: pop the top entry; if its
stamp equals `len(seeds)` accept it (append the node, add its gain to the
running total), else recompute its marginal gain against the running
total, re-stamp with `len(seeds)` and push it back. -/
def celfLoop (G : Graph) (k : Int) (default_prob : Rat) (mc max_steps : Nat)
    (rng : Nat → Rat) :
    Nat → List Entry → List Nat → Rat → Nat →
    Option (Except PyErr (List Nat × Nat))
  | 0, _, _, _, _ => none
  | fuel + 1, pq, seeds, spreadS, idx =>
    if (seeds.length : Int) < k then
      match pq with
      | [] => some (.error .indexError)
      | e :: rest =>
        if e.stamp = seeds.length then
          celfLoop G k default_prob mc max_steps rng fuel rest
            (seeds ++ [e.node]) (spreadS + -e.negGain) idx
        else
          match estimate_spread G (seeds ++ [e.node]) mc max_steps
              default_prob rng idx with
          | .error err => some (.error err)
          | .ok si =>
            celfLoop G k default_prob mc max_steps rng fuel
              (heappush rest ⟨-(si.1 - spreadS), e.node, seeds.length⟩)
              seeds spreadS si.2
    else some (.ok (seeds, idx))

/-- `celf` (lines 129-216): validate `k`, run the initialization, then the
lazy greedy loop. -/
def celf (G : Graph) (k : Int) (default_prob : Rat) (mc max_steps : Nat)
    (rng : Nat → Rat) (idx : Nat) (fuel : Nat) :
    Option (Except PyErr (List Nat × Nat)) :=
  if k < 1 then some (.error (.valueError "k must be at least 1"))
  else if (G.nodes.length : Int) < k then
    some (.error (.valueError ("k (" ++ toString k ++
      ") cannot exceed number of nodes (" ++ toString G.nodes.length ++ ")")))
  else
    match celfInit G default_prob mc max_steps rng G.nodes [] idx with
    | .error e => some (.error e)
    | .ok pi => celfLoop G k default_prob mc max_steps rng fuel pi.1 [] 0 pi.2

/-- A priority-queue entry of `_celf_deprecated`, with one ghost field:
`against` is the size of the seed set the entry's gain was computed
against (0 for the initial singleton estimates, `len(seeds)` for a
recomputation).  The heap order ignores it. -/
structure DEntry where
  negGain : Rat
  node : Nat
  stamp : Nat
  against : Nat
  deriving DecidableEq

/-- Tuple order on deprecated entries: Python compares only the tuple
`(-gain, node, iteration)`; the ghost field takes no part. -/
def DEntry.leb (a b : DEntry) : Bool :=
  if a.negGain = b.negGain then
    if a.node = b.node then decide (a.stamp ≤ b.stamp)
    else decide (a.node < b.node)
  else decide (a.negGain < b.negGain)

/-- `heapq.heappush` for deprecated entries. -/
def dheappush (pq : List DEntry) (e : DEntry) : List DEntry :=
  match pq with
  | [] => [e]
  | x :: xs => if e.leb x then e :: x :: xs else x :: dheappush xs e

/-- Initialization of `_celf_deprecated` (lines 288-292): one plain
simulation per node, spread = size of the activated set. -/
def celfDepInit (G : Graph) (default_prob : Rat) (max_steps : Nat)
    (rng : Nat → Rat) :
    List Nat → List DEntry → Nat → Except PyErr (List DEntry × Nat)
  | [], pq, idx => .ok (pq, idx)
  | n :: ns, pq, idx =>
    match independent_cascade G {n} max_steps default_prob rng idx with
    | .error e => .error e
    | .ok r =>
      celfDepInit G default_prob max_steps rng ns
        (dheappush pq ⟨-(r.active.card : Rat), n, 0, 0⟩) r.idx

/-- The loop of `_celf_deprecated` (lines 297-312), with fuel.  A pop is
judged fresh when `last_iter == iter_num - 1`; `iter_num` increments on
every pop.  The recomputation runs two simulations with the default
`max_steps = 99999` (the recursive calls at lines 305-306 forward no
`**kwargs`).  Alongside the Python result the function returns the ghost
accept trace: one pair `(entry.against, len(seeds))` per accepted entry,
recorded at the moment of acceptance. -/
def celfDepLoop (G : Graph) (k : Int) (default_prob : Rat)
    (rng : Nat → Rat) :
    Nat → List DEntry → List Nat → Nat → Nat → List (Nat × Nat) →
    Option (Except PyErr (List Nat × Nat)) × List (Nat × Nat)
  | 0, _, _, _, _, acc => (none, acc)
  | fuel + 1, pq, seeds, iterNum, idx, acc =>
    if (seeds.length : Int) < k then
      match pq with
      | [] => (some (.error .indexError), acc)
      | e :: rest =>
        if e.stamp + 1 = iterNum then
          celfDepLoop G k default_prob rng fuel rest (seeds ++ [e.node])
            (iterNum + 1) idx (acc ++ [(e.against, seeds.length)])
        else
          match independent_cascade G (seeds ++ [e.node]).toFinset 99999
              default_prob rng idx with
          | .error err => (some (.error err), acc)
          | .ok r1 =>
            match independent_cascade G seeds.toFinset 99999
                default_prob rng r1.idx with
            | .error err => (some (.error err), acc)
            | .ok r2 =>
              celfDepLoop G k default_prob rng fuel
                (dheappush rest ⟨-((r1.active.card : Rat) - (r2.active.card : Rat)),
                  e.node, iterNum - 1, seeds.length⟩)
                seeds (iterNum + 1) r2.idx acc
    else (some (.ok (seeds, idx)), acc)

/-- `_celf_deprecated` (lines 218-314): validate `k` and `default_prob`,
initialize, then loop with `iter_num` starting at 1. -/
def celf_deprecated (G : Graph) (k : Int) (default_prob : Rat)
    (max_steps : Nat) (rng : Nat → Rat) (idx : Nat) (fuel : Nat) :
    Option (Except PyErr (List Nat × Nat)) × List (Nat × Nat) :=
  if k < 1 then (some (.error (.valueError "k must be at least 1")), [])
  else if (G.nodes.length : Int) < k then
    (some (.error (.valueError ("k (" ++ toString k ++
      ") cannot be greater than number of nodes (" ++
      toString G.nodes.length ++ ")"))), [])
  else if ¬ (0 ≤ default_prob ∧ default_prob ≤ 1) then
    (some (.error (.valueError "default_prob must be between 0 and 1")), [])
  else
    match celfDepInit G default_prob max_steps rng G.nodes [] idx with
    | .error e => (some (.error e), [])
    | .ok pi => celfDepLoop G k default_prob rng fuel pi.1 [] 1 pi.2 []

/-- Spec-side description of the per-trial activated-set sizes that
`estimate_spread` averages: the sizes of `mc` successive simulation runs
chained on the shared rng stream. -/
def trialSizes (G : Graph) (seeds : Finset Nat) (max_steps : Nat)
    (default_prob : Rat) (rng : Nat → Rat) :
    Nat → Nat → List Rat
  | 0, _ => []
  | m + 1, idx =>
    match independent_cascade G seeds max_steps default_prob rng idx with
    | .error _ => []
    | .ok r => (r.active.card : Rat) :: trialSizes G seeds max_steps default_prob rng m r.idx

/-- The graph `G` with every missing probability attribute replaced by the
explicit value `default_prob`; used to state that missing attributes
silently mean `default_prob`. -/
def fillDefaults (G : Graph) (default_prob : Rat) : Graph :=
  ⟨G.nodes, G.edges, fun u v => some ((G.prob u v).getD default_prob)⟩

/-- Number of entries whose stamp differs from the current seed count:
the second component of the termination measure of `celfLoop`. -/
def staleCount (s : Nat) (pq : List Entry) : Nat :=
  pq.countP (fun e => e.stamp ≠ s)

/-- Termination measure of `celfLoop`: decreases on every pop. -/
def celfMeasure (k : Nat) (seeds : List Nat) (pq : List Entry) : Nat :=
  (k - seeds.length) * (pq.length + 1) + staleCount seeds.length pq

/-- A one-node graph with no edges and no probability attributes, a
concrete test input. -/
def oneNodeGraph : Graph := ⟨[0], [], fun _ _ => none⟩

/-- A two-node graph with no edges, a concrete test input. -/
def twoNodeGraph : Graph := ⟨[0, 1], [], fun _ _ => none⟩

/-- The constant-zero random stream, a concrete test oracle. -/
def rngZero : Nat → Rat := fun _ => 0

/-- The constant-one random stream (every activation attempt fails, since
a draw succeeds only when it is strictly below the edge probability). -/
def rngOne : Nat → Rat := fun _ => 1

end Cascade


namespace Cascade

/-! ### Helper lemmas about the heap model -/

lemma heappush_perm (pq : List Entry) (e : Entry) :
    List.Perm (heappush pq e) (e :: pq) := by
  induction pq with
  | nil => simp [heappush]
  | cons x xs ih =>
    rw [heappush]
    split
    · exact List.Perm.refl _
    · exact (ih.cons x).trans (List.Perm.swap e x xs)

lemma dheappush_perm (pq : List DEntry) (e : DEntry) :
    List.Perm (dheappush pq e) (e :: pq) := by
  induction pq with
  | nil => simp [dheappush]
  | cons x xs ih =>
    rw [dheappush]
    split
    · exact List.Perm.refl _
    · exact (ih.cons x).trans (List.Perm.swap e x xs)

lemma heappush_length (pq : List Entry) (e : Entry) :
    (heappush pq e).length = pq.length + 1 := by
  simpa using (heappush_perm pq e).length_eq

lemma heappush_mem {pq : List Entry} {e x : Entry} :
    x ∈ heappush pq e ↔ x = e ∨ x ∈ pq := by
  rw [(heappush_perm pq e).mem_iff, List.mem_cons]

lemma dheappush_mem {pq : List DEntry} {e x : DEntry} :
    x ∈ dheappush pq e ↔ x = e ∨ x ∈ pq := by
  rw [(dheappush_perm pq e).mem_iff, List.mem_cons]

lemma dheappush_length (pq : List DEntry) (e : DEntry) :
    (dheappush pq e).length = pq.length + 1 := by
  simpa using (dheappush_perm pq e).length_eq

/-! ### Helper lemmas about `independent_cascade` -/

/-- Under valid inputs `independent_cascade` runs the simulation loop. -/
lemma ic_ok {G : Graph} {seeds : Finset Nat} {dp : Rat} (ms : Nat)
    (rng : Nat → Rat) (idx : Nat)
    (h1 : seeds ≠ ∅) (h2 : ∀ s ∈ seeds, s ∈ G.nodes)
    (h3 : 0 ≤ dp) (h4 : dp ≤ 1) :
    independent_cascade G seeds ms dp rng idx =
      .ok (simLoop G dp rng ms seeds (seeds.sort (· ≤ ·)) [seeds] 0 [] idx) := by
  unfold independent_cascade
  rw [if_neg h1, if_neg (not_not_intro h2), if_neg (not_not_intro ⟨h3, h4⟩)]

/-- On invalid inputs `independent_cascade` returns the first matching
`ValueError`; the right-hand side mentions no random stream. -/
lemma ic_invalid {G : Graph} {seeds : Finset Nat} {ms : Nat} {dp : Rat}
    (rng : Nat → Rat) (idx : Nat)
    (hc : seeds = ∅ ∨ (∃ s ∈ seeds, s ∉ G.nodes) ∨ dp < 0 ∨ 1 < dp) :
    independent_cascade G seeds ms dp rng idx =
      (if seeds = ∅ then .error (.valueError "Seeds set cannot be empty")
       else if ¬ (∀ s ∈ seeds, s ∈ G.nodes) then
         .error (.valueError "All seed nodes must exist in the graph")
       else .error (.valueError "default_prob must be between 0 and 1")) := by
  rcases hc with h | ⟨s, hs, hsn⟩ | h
  · unfold independent_cascade
    rw [if_pos h, if_pos h]
  · have h1 : seeds ≠ ∅ := by
      intro he
      rw [he] at hs
      simp at hs
    have h2 : ¬ (∀ x ∈ seeds, x ∈ G.nodes) := fun hall => hsn (hall s hs)
    unfold independent_cascade
    rw [if_neg h1, if_neg h1, if_pos h2, if_pos h2]
  · have h3 : ¬ (0 ≤ dp ∧ dp ≤ 1) := by
      rintro ⟨h0, hle⟩
      rcases h with h | h
      · exact h0.not_lt h
      · exact hle.not_lt h
    unfold independent_cascade
    by_cases h1 : seeds = ∅
    · rw [if_pos h1, if_pos h1]
    · rw [if_neg h1, if_neg h1]
      by_cases h2 : ∀ x ∈ seeds, x ∈ G.nodes
      · rw [if_neg (not_not_intro h2), if_neg (not_not_intro h2), if_pos h3]
      · rw [if_pos h2, if_pos h2]

/-- Every failure of `independent_cascade` is a `ValueError`. -/
lemma ic_error_cases {G : Graph} {seeds : Finset Nat} {ms : Nat} {dp : Rat}
    {rng : Nat → Rat} {idx : Nat} {e : PyErr}
    (h : independent_cascade G seeds ms dp rng idx = .error e) :
    ∃ msg, e = .valueError msg := by
  unfold independent_cascade at h
  split_ifs at h with h1 h2 h3
  · exact ⟨_, (Except.error.injEq _ _).mp h |>.symm⟩
  · exact ⟨_, (Except.error.injEq _ _).mp h |>.symm⟩
  · exact ⟨_, (Except.error.injEq _ _).mp h |>.symm⟩

/-- Every failure of `sumTrials` is a `ValueError` (it comes from a
failed simulation). -/
lemma sumTrials_error_cases {G : Graph} {seeds : Finset Nat} {ms : Nat}
    {dp : Rat} {rng : Nat → Rat} :
    ∀ {m idx e}, sumTrials G seeds ms dp rng m idx = .error e →
      ∃ msg, e = .valueError msg := by
  intro m
  induction m with
  | zero => intro idx e h; simp [sumTrials] at h
  | succ n ih =>
    intro idx e h
    rw [sumTrials] at h
    cases hic : independent_cascade G seeds ms dp rng idx with
    | error e1 =>
      simp only [hic, Except.error.injEq] at h
      exact h ▸ ic_error_cases hic
    | ok r =>
      simp only [hic] at h
      cases hst : sumTrials G seeds ms dp rng n r.idx with
      | error e2 =>
        simp only [hst, Except.error.injEq] at h
        exact h ▸ ih hst
      | ok s2 =>
        simp only [hst] at h
        exact Except.noConfusion h

/-! ### C6: validation of the simulator -/

/-- C6.  `simulate` fails — always with a `ValueError`, the spec's
`InvalidArgument` — if and only if the seed set is empty, some seed is
not a node of the graph, or the default probability lies outside
`[0, 1]`; no other input condition causes a failure, and on the failing
inputs the result is the same for every random stream (no randomness is
consumed). -/
theorem simulate_invalid_argument_iff (G : Graph) (seeds : Finset Nat)
    (ms : Nat) (dp : Rat) (rng rng' : Nat → Rat) (idx : Nat) :
    ((∃ msg, independent_cascade G seeds ms dp rng idx = .error (.valueError msg)) ↔
      (seeds = ∅ ∨ (∃ s ∈ seeds, s ∉ G.nodes) ∨ dp < 0 ∨ 1 < dp))
    ∧ (∀ e, independent_cascade G seeds ms dp rng idx = .error e →
        ∃ msg, e = .valueError msg)
    ∧ ((seeds = ∅ ∨ (∃ s ∈ seeds, s ∉ G.nodes) ∨ dp < 0 ∨ 1 < dp) →
        independent_cascade G seeds ms dp rng idx =
          independent_cascade G seeds ms dp rng' idx) := by
  refine ⟨⟨?_, ?_⟩, fun e h => ic_error_cases h, ?_⟩
  · intro ⟨msg, h⟩
    by_contra hc
    push_neg at hc
    obtain ⟨hne, hmem, h0, h1⟩ := hc
    rw [ic_ok ms rng idx hne hmem h0 h1] at h
    cases h
  · intro hc
    rw [ic_invalid rng idx hc]
    split_ifs <;> exact ⟨_, rfl⟩
  · intro hc
    rw [ic_invalid rng idx hc, ic_invalid rng' idx hc]

/-! ### C10: `estimate_spread` does not validate `trialCount` -/

/-- C10.  `estimate_spread` performs no validation of the trial count:
with `mc = 0` it fails with `ZeroDivisionError` (never `ValueError`) on
every graph and seed list, while for `mc ≥ 1` the division never fails —
any failure with `mc ≥ 1` is a `ValueError` propagated from a
simulation. -/
theorem estimate_spread_trial_count (G : Graph) (seeds : List Nat)
    (ms : Nat) (dp : Rat) (rng : Nat → Rat) (idx : Nat) (mc : Nat) :
    estimate_spread G seeds 0 ms dp rng idx = .error .zeroDivisionError
    ∧ (1 ≤ mc →
        estimate_spread G seeds mc ms dp rng idx ≠ .error .zeroDivisionError) := by
  constructor
  · rfl
  · intro hmc h
    unfold estimate_spread at h
    cases hst : sumTrials G seeds.toFinset ms dp rng mc idx with
    | error e2 =>
      simp only [hst, Except.error.injEq] at h
      obtain ⟨msg, hm⟩ := sumTrials_error_cases hst
      rw [h] at hm
      cases hm
    | ok s2 =>
      simp only [hst] at h
      rw [if_neg (by omega)] at h
      cases h

end Cascade

namespace Cascade

/-! ### C9: missing probability attributes silently use the default -/

lemma attemptSuccessors_fill (G : Graph) (dp : Rat) (rng : Nat → Rat)
    (active : Finset Nat) (u : Nat) :
    ∀ vs idx, attemptSuccessors (fillDefaults G dp) dp rng active u vs idx =
      attemptSuccessors G dp rng active u vs idx := by
  intro vs
  induction vs with
  | nil => intro idx; rfl
  | cons v vs ih =>
    intro idx
    rw [attemptSuccessors, attemptSuccessors, ih, ih]
    have hp : edgeProb (fillDefaults G dp) dp u v = edgeProb G dp u v := by
      simp [edgeProb, fillDefaults]
    rw [hp]

lemma runRound_fill (G : Graph) (dp : Rat) (rng : Nat → Rat)
    (active : Finset Nat) :
    ∀ us idx, runRound (fillDefaults G dp) dp rng active us idx =
      runRound G dp rng active us idx := by
  intro us
  induction us with
  | nil => intro idx; rfl
  | cons u us ih =>
    intro idx
    rw [runRound, runRound]
    have hs : successors (fillDefaults G dp) u = successors G u := rfl
    rw [hs, attemptSuccessors_fill, ih]

lemma simLoop_fill (G : Graph) (dp : Rat) (rng : Nat → Rat) :
    ∀ fuel active frontier steps rounds att idx,
      simLoop (fillDefaults G dp) dp rng fuel active frontier steps rounds att idx =
        simLoop G dp rng fuel active frontier steps rounds att idx := by
  intro fuel
  induction fuel with
  | zero => intro active frontier steps rounds att idx; rfl
  | succ n ih =>
    intro active frontier steps rounds att idx
    rw [simLoop, simLoop, runRound_fill]
    split
    · rfl
    · rw [ih]

/-- C9.  A missing probability attribute on an edge is not an error: the
attempt over such an edge uses `default_prob` (first conjunct), the whole
simulation behaves exactly as on the graph in which every missing
attribute is explicitly set to `default_prob` (second conjunct), and for
valid seed/probability arguments the call succeeds no matter which
attributes are missing (third conjunct). -/
theorem simulate_missing_attribute (G : Graph) (seeds : Finset Nat)
    (ms : Nat) (dp : Rat) (rng : Nat → Rat) (idx : Nat) :
    (∀ u v, G.prob u v = none → edgeProb G dp u v = dp)
    ∧ independent_cascade G seeds ms dp rng idx =
        independent_cascade (fillDefaults G dp) seeds ms dp rng idx
    ∧ (seeds ≠ ∅ → (∀ s ∈ seeds, s ∈ G.nodes) → 0 ≤ dp → dp ≤ 1 →
        ∃ r, independent_cascade G seeds ms dp rng idx = .ok r) := by
  refine ⟨fun u v h => by simp [edgeProb, h], ?_, ?_⟩
  · unfold independent_cascade
    have hn : (fillDefaults G dp).nodes = G.nodes := rfl
    rw [hn, simLoop_fill]
  · intro h1 h2 h3 h4
    exact ⟨_, ic_ok ms rng idx h1 h2 h3 h4⟩

/-! ### C1: one iteration of the CELF greedy loop -/

/-- C1.  One pop of the CELF loop, while fewer than `k` seeds are
selected: if the popped entry's stamp equals the number of seeds selected
so far, the entry is fresh — its node is appended to the seed list and
its gain (`-negGain`) is added to the running total spread; otherwise its
marginal gain is recomputed as `estimate_spread(G, seeds + [node])` minus
the running total spread, the entry is re-stamped with the current number
of selected seeds and pushed back, and the seed list is unchanged on that
pop (an error of the estimator propagates). -/
theorem celf_loop_step (G : Graph) (k : Int) (dp : Rat) (mc ms : Nat)
    (rng : Nat → Rat) (fuel : Nat) (e : Entry) (rest : List Entry)
    (seeds : List Nat) (spreadS : Rat) (idx : Nat)
    (hlt : (seeds.length : Int) < k) :
    (e.stamp = seeds.length →
      celfLoop G k dp mc ms rng (fuel + 1) (e :: rest) seeds spreadS idx =
        celfLoop G k dp mc ms rng fuel rest (seeds ++ [e.node])
          (spreadS + -e.negGain) idx)
    ∧ (e.stamp ≠ seeds.length →
        (∀ err, estimate_spread G (seeds ++ [e.node]) mc ms dp rng idx = .error err →
          celfLoop G k dp mc ms rng (fuel + 1) (e :: rest) seeds spreadS idx =
            some (.error err))
        ∧ (∀ sw idx', estimate_spread G (seeds ++ [e.node]) mc ms dp rng idx =
            .ok (sw, idx') →
          celfLoop G k dp mc ms rng (fuel + 1) (e :: rest) seeds spreadS idx =
            celfLoop G k dp mc ms rng fuel
              (heappush rest ⟨-(sw - spreadS), e.node, seeds.length⟩)
              seeds spreadS idx')) := by
  constructor
  · intro hfresh
    rw [celfLoop, if_pos hlt]
    simp only [hfresh, eq_self_iff_true, if_true]
  · intro hstale
    constructor
    · intro err herr
      rw [celfLoop, if_pos hlt]
      simp only [if_neg hstale, herr]
    · intro sw idx' hok
      rw [celfLoop, if_pos hlt]
      simp only [if_neg hstale, hok]

end Cascade

namespace Cascade

/-! ### C8: the estimator returns the arithmetic mean of the trials -/

/-- Under valid inputs, the running sum computed by `sumTrials` is the sum
of the per-trial activated-set sizes, and there are exactly `m` trials. -/
lemma sumTrials_eq_trialSizes (G : Graph) (seeds : Finset Nat) (ms : Nat)
    (dp : Rat) (rng : Nat → Rat)
    (h1 : seeds ≠ ∅) (h2 : ∀ s ∈ seeds, s ∈ G.nodes)
    (h3 : 0 ≤ dp) (h4 : dp ≤ 1) :
    ∀ m idx, (trialSizes G seeds ms dp rng m idx).length = m
      ∧ ∃ i2, sumTrials G seeds ms dp rng m idx =
          .ok ((trialSizes G seeds ms dp rng m idx).sum, i2) := by
  intro m
  induction m with
  | zero => exact fun idx => ⟨rfl, idx, by simp [sumTrials, trialSizes]⟩
  | succ n ih =>
    intro idx
    have hic := ic_ok ms rng idx h1 h2 h3 h4
    obtain ⟨hlen, i2, hsum⟩ :=
      ih (simLoop G dp rng ms seeds (seeds.sort (· ≤ ·)) [seeds] 0 [] idx).idx
    constructor
    · rw [trialSizes]
      simp only [hic, hlen, List.length_cons]
    · refine ⟨i2, ?_⟩
      rw [sumTrials, trialSizes]
      simp only [hic, hsum, List.sum_cons]

/-- C8.  For valid inputs and `mc ≥ 1`, `estimate_spread` returns the
arithmetic mean — sum divided by `mc` — of the activated-set sizes of
the `mc` successive simulation runs described by `trialSizes`. -/
theorem estimate_spread_is_mean (G : Graph) (seedsL : List Nat)
    (mc ms : Nat) (dp : Rat) (rng : Nat → Rat) (idx : Nat)
    (h0 : seedsL ≠ []) (hmem : ∀ s ∈ seedsL, s ∈ G.nodes)
    (h3 : 0 ≤ dp) (h4 : dp ≤ 1) (hmc : 1 ≤ mc) :
    (trialSizes G seedsL.toFinset ms dp rng mc idx).length = mc
    ∧ ∃ i2, estimate_spread G seedsL mc ms dp rng idx =
        .ok ((trialSizes G seedsL.toFinset ms dp rng mc idx).sum / mc, i2) := by
  have h1 : seedsL.toFinset ≠ ∅ := by
    rw [Ne, List.toFinset_eq_empty_iff]
    exact h0
  have h2 : ∀ s ∈ seedsL.toFinset, s ∈ G.nodes := by
    intro s hs
    exact hmem s (List.mem_toFinset.mp hs)
  obtain ⟨hlen, i2, hsum⟩ :=
    sumTrials_eq_trialSizes G seedsL.toFinset ms dp rng h1 h2 h3 h4 mc idx
  refine ⟨hlen, i2, ?_⟩
  rw [estimate_spread]
  simp only [hsum]
  rw [if_neg (by omega)]

/-! ### C3: shape of the simulation history -/

/-- Invariant propagation through the simulation loop: the history only
grows at the tail, stays a chain under inclusion, always ends at the
current active set, and gains exactly one snapshot per counted round. -/
lemma simLoop_history (G : Graph) (dp : Rat) (rng : Nat → Rat) :
    ∀ fuel active frontier steps rounds att idx,
      steps.getLast? = some active →
      List.Chain' (· ⊆ ·) steps →
      ∀ r, simLoop G dp rng fuel active frontier steps rounds att idx = r →
        r.steps.head? = steps.head?
        ∧ r.steps.getLast? = some r.active
        ∧ List.Chain' (· ⊆ ·) r.steps
        ∧ active ⊆ r.active
        ∧ r.steps.length + rounds = steps.length + r.rounds
        ∧ r.rounds ≤ rounds + fuel := by
  intro fuel
  induction fuel with
  | zero =>
    intro active frontier steps rounds att idx hlast hchain r hr
    rw [simLoop] at hr
    subst hr
    exact ⟨rfl, hlast, hchain, Finset.Subset.refl _, rfl, Nat.le_refl _⟩
  | succ n ih =>
    intro active frontier steps rounds att idx hlast hchain r hr
    have hne : steps ≠ [] := by
      intro h
      rw [h] at hlast
      cases hlast
    rw [simLoop] at hr
    split at hr
    · subst hr
      exact ⟨rfl, hlast, hchain, Finset.Subset.refl _, rfl, Nat.le_add_right _ _⟩
    · have hsub : active ⊆ active ∪ (runRound G dp rng active frontier idx).1.dedup.toFinset :=
        Finset.subset_union_left
      have hlast2 : (steps ++ [active ∪ (runRound G dp rng active frontier idx).1.dedup.toFinset]).getLast? =
          some (active ∪ (runRound G dp rng active frontier idx).1.dedup.toFinset) :=
        List.getLast?_concat _
      have hchain2 : List.Chain' (· ⊆ ·)
          (steps ++ [active ∪ (runRound G dp rng active frontier idx).1.dedup.toFinset]) := by
        rw [List.chain'_append]
        refine ⟨hchain, List.chain'_singleton _, ?_⟩
        intro x hx y hy
        rw [hlast] at hx
        cases hx
        cases hy
        exact hsub
      obtain ⟨hh, hl, hc, hs, hlen, hr2⟩ := ih _ _ _ _ _ _ hlast2 hchain2 r hr
      refine ⟨?_, hl, hc, Finset.Subset.trans hsub hs, ?_, by omega⟩
      · rw [hh, List.head?_append_of_ne_nil _ hne]
      · rw [List.length_append] at hlen
        simp only [List.length_singleton] at hlen
        omega

/-- C3.  For every valid call, the simulator succeeds; the activated set
contains the seeds; the history starts at the seed set, is a chain under
set inclusion, and ends exactly at the activated set; its length is
`1 + rounds` where `rounds` is the number of activation rounds actually
recorded, and `rounds ≤ max_steps` (so the length is at most
`max_steps + 1`). -/
theorem simulate_history (G : Graph) (seeds : Finset Nat) (ms : Nat)
    (dp : Rat) (rng : Nat → Rat) (idx : Nat)
    (h1 : seeds ≠ ∅) (h2 : ∀ s ∈ seeds, s ∈ G.nodes)
    (h3 : 0 ≤ dp) (h4 : dp ≤ 1) :
    ∃ r, independent_cascade G seeds ms dp rng idx = .ok r
      ∧ seeds ⊆ r.active
      ∧ r.steps.head? = some seeds
      ∧ List.Chain' (· ⊆ ·) r.steps
      ∧ r.steps.getLast? = some r.active
      ∧ r.steps.length = 1 + r.rounds
      ∧ r.rounds ≤ ms := by
  refine ⟨_, ic_ok ms rng idx h1 h2 h3 h4, ?_⟩
  obtain ⟨hh, hl, hc, hs, hlen, hr⟩ :=
    simLoop_history G dp rng ms seeds (seeds.sort (· ≤ ·)) [seeds] 0 [] idx
      (by simp) (List.chain'_singleton _) _ rfl
  refine ⟨hs, ?_, hc, hl, ?_, by omega⟩
  · rw [hh]
    rfl
  · simp only [List.length_singleton] at hlen
    omega

end Cascade

namespace Cascade

/-! ### C4: each edge is attempted at most once per simulation -/

lemma mem_successors {G : Graph} {u v : Nat} :
    v ∈ successors G u ↔ (u, v) ∈ G.edges := by
  simp only [successors, List.mem_map, List.mem_filter, beq_iff_eq]
  constructor
  · rintro ⟨⟨a, b⟩, ⟨hmem, rfl⟩, rfl⟩
    exact hmem
  · intro h
    exact ⟨(u, v), ⟨h, rfl⟩, rfl⟩

lemma successors_nodup {G : Graph} (hE : G.edges.Nodup) (u : Nat) :
    (successors G u).Nodup := by
  refine List.Nodup.map_on ?_ (hE.filter _)
  rintro ⟨a, b⟩ hx ⟨c, d⟩ hy hsnd
  simp only [List.mem_filter, beq_iff_eq] at hx hy
  simp only at hsnd
  rw [hx.2, hy.2, hsnd]

lemma attemptSuccessors_shape (G : Graph) (dp : Rat) (rng : Nat → Rat)
    (active : Finset Nat) (u : Nat) :
    ∀ vs idx, ∀ p ∈ (attemptSuccessors G dp rng active u vs idx).2.1,
      p.1.1 = u ∧ p.1.2 ∈ vs ∧ p.2 = active ∧ p.1.2 ∉ active := by
  intro vs
  induction vs with
  | nil => intro idx p hp; simp [attemptSuccessors] at hp
  | cons v vs ih =>
    intro idx p hp
    rw [attemptSuccessors] at hp
    by_cases hv : v ∈ active
    · rw [if_pos hv] at hp
      obtain ⟨h1, h2, h3, h4⟩ := ih idx p hp
      exact ⟨h1, List.mem_cons_of_mem _ h2, h3, h4⟩
    · rw [if_neg hv] at hp
      simp only [List.mem_cons] at hp
      rcases hp with rfl | hp
      · exact ⟨rfl, List.mem_cons_self _ _, rfl, hv⟩
      · obtain ⟨h1, h2, h3, h4⟩ := ih (idx + 1) p hp
        exact ⟨h1, List.mem_cons_of_mem _ h2, h3, h4⟩

lemma attemptSuccessors_nodup (G : Graph) (dp : Rat) (rng : Nat → Rat)
    (active : Finset Nat) (u : Nat) :
    ∀ vs idx, vs.Nodup →
      (((attemptSuccessors G dp rng active u vs idx).2.1.map Prod.fst)).Nodup := by
  intro vs
  induction vs with
  | nil => intro idx _; simp [attemptSuccessors]
  | cons v vs ih =>
    intro idx hnd
    rw [attemptSuccessors]
    by_cases hv : v ∈ active
    · rw [if_pos hv]
      exact ih idx hnd.of_cons
    · rw [if_neg hv]
      simp only [List.map_cons]
      refine List.Nodup.cons ?_ (ih (idx + 1) hnd.of_cons)
      intro hmem
      simp only [List.mem_map] at hmem
      obtain ⟨p, hp, hfst⟩ := hmem
      obtain ⟨h1, h2, _, _⟩ := attemptSuccessors_shape G dp rng active u vs (idx + 1) p hp
      have : p.1.2 = v := by rw [hfst]
      rw [this] at h2
      exact (List.nodup_cons.mp hnd).1 h2

lemma attemptSuccessors_hits (G : Graph) (dp : Rat) (rng : Nat → Rat)
    (active : Finset Nat) (u : Nat) :
    ∀ vs idx, ∀ w ∈ (attemptSuccessors G dp rng active u vs idx).1,
      w ∉ active := by
  intro vs
  induction vs with
  | nil => intro idx w hw; simp [attemptSuccessors] at hw
  | cons v vs ih =>
    intro idx w hw
    rw [attemptSuccessors] at hw
    by_cases hv : v ∈ active
    · rw [if_pos hv] at hw
      exact ih idx w hw
    · rw [if_neg hv] at hw
      dsimp only at hw
      by_cases hhit : rng idx < edgeProb G dp u v
      · rw [if_pos hhit] at hw
        rcases List.mem_cons.mp hw with rfl | hw
        · exact hv
        · exact ih (idx + 1) w hw
      · rw [if_neg hhit] at hw
        exact ih (idx + 1) w hw

lemma attemptSuccessors_idx (G : Graph) (dp : Rat) (rng : Nat → Rat)
    (active : Finset Nat) (u : Nat) :
    ∀ vs idx, (attemptSuccessors G dp rng active u vs idx).2.2 =
      idx + (attemptSuccessors G dp rng active u vs idx).2.1.length := by
  intro vs
  induction vs with
  | nil => intro idx; simp [attemptSuccessors]
  | cons v vs ih =>
    intro idx
    rw [attemptSuccessors]
    by_cases hv : v ∈ active
    · rw [if_pos hv]
      exact ih idx
    · rw [if_neg hv]
      dsimp only
      simp only [List.length_cons]
      rw [ih (idx + 1)]
      omega

lemma runRound_shape (G : Graph) (dp : Rat) (rng : Nat → Rat)
    (active : Finset Nat) :
    ∀ us idx, ∀ p ∈ (runRound G dp rng active us idx).2.1,
      p.1.1 ∈ us ∧ p.1 ∈ G.edges ∧ p.2 = active ∧ p.1.2 ∉ active := by
  intro us
  induction us with
  | nil => intro idx p hp; simp [runRound] at hp
  | cons u us ih =>
    intro idx p hp
    rw [runRound] at hp
    rcases List.mem_append.mp hp with hp | hp
    · obtain ⟨h1, h2, h3, h4⟩ :=
        attemptSuccessors_shape G dp rng active u (successors G u) idx p hp
      refine ⟨by rw [h1]; exact List.mem_cons_self _ _, ?_, h3, h4⟩
      have : (p.1.1, p.1.2) ∈ G.edges := by
        rw [h1]
        exact mem_successors.mp h2
      simpa using this
    · obtain ⟨h1, h2, h3, h4⟩ := ih _ p hp
      exact ⟨List.mem_cons_of_mem _ h1, h2, h3, h4⟩

lemma runRound_nodup (G : Graph) (dp : Rat) (rng : Nat → Rat)
    (active : Finset Nat) (hE : G.edges.Nodup) :
    ∀ us idx, us.Nodup →
      ((runRound G dp rng active us idx).2.1.map Prod.fst).Nodup := by
  intro us
  induction us with
  | nil => intro idx _; simp [runRound]
  | cons u us ih =>
    intro idx hnd
    rw [runRound]
    simp only [List.map_append]
    refine List.Nodup.append
      (attemptSuccessors_nodup G dp rng active u (successors G u) idx
        (successors_nodup hE u))
      (ih _ hnd.of_cons) ?_
    intro x hx hy
    simp only [List.mem_map] at hx hy
    obtain ⟨p, hp, rfl⟩ := hx
    obtain ⟨q, hq, hpq⟩ := hy
    obtain ⟨hpu, _, _, _⟩ :=
      attemptSuccessors_shape G dp rng active u (successors G u) idx p hp
    obtain ⟨hqu, _, _, _⟩ := runRound_shape G dp rng active us _ q hq
    rw [hpq] at hqu
    rw [hpu] at hqu
    exact (List.nodup_cons.mp hnd).1 hqu

lemma runRound_hits (G : Graph) (dp : Rat) (rng : Nat → Rat)
    (active : Finset Nat) :
    ∀ us idx, ∀ w ∈ (runRound G dp rng active us idx).1, w ∉ active := by
  intro us
  induction us with
  | nil => intro idx w hw; simp [runRound] at hw
  | cons u us ih =>
    intro idx w hw
    rw [runRound] at hw
    rcases List.mem_append.mp hw with hw | hw
    · exact attemptSuccessors_hits G dp rng active u (successors G u) idx w hw
    · exact ih _ w hw

lemma runRound_idx (G : Graph) (dp : Rat) (rng : Nat → Rat)
    (active : Finset Nat) :
    ∀ us idx, (runRound G dp rng active us idx).2.2 =
      idx + (runRound G dp rng active us idx).2.1.length := by
  intro us
  induction us with
  | nil => intro idx; simp [runRound]
  | cons u us ih =>
    intro idx
    rw [runRound]
    simp only [List.length_append]
    rw [ih, attemptSuccessors_idx]
    omega

end Cascade

namespace Cascade

/-- Invariant propagation for the attempt trace: sources of recorded
attempts never reappear in a later frontier, so no edge is ever attempted
twice; every attempt targets a node outside its recorded active set; every
recorded active set is one of the history snapshots; and the rng index
advances by exactly one per attempt. -/
lemma simLoop_attempts (G : Graph) (dp : Rat) (rng : Nat → Rat)
    (hE : G.edges.Nodup) :
    ∀ fuel active frontier steps rounds att idx,
      frontier.Nodup →
      (∀ u ∈ frontier, u ∈ active) →
      (∀ p ∈ att, p.1.1 ∈ active ∧ p.1.1 ∉ frontier) →
      (att.map Prod.fst).Nodup →
      (∀ p ∈ att, p.1 ∈ G.edges ∧ p.1.2 ∉ p.2 ∧ p.2 ∈ steps) →
      steps.getLast? = some active →
      ∀ r, simLoop G dp rng fuel active frontier steps rounds att idx = r →
        (r.attempts.map Prod.fst).Nodup
        ∧ (∀ p ∈ r.attempts, p.1 ∈ G.edges ∧ p.1.2 ∉ p.2 ∧ p.2 ∈ r.steps)
        ∧ r.idx + att.length = idx + r.attempts.length := by
  intro fuel
  induction fuel with
  | zero =>
    intro active frontier steps rounds att idx _ _ _ hnd htgt _ r hr
    rw [simLoop] at hr
    subst hr
    exact ⟨hnd, htgt, rfl⟩
  | succ n ih =>
    intro active frontier steps rounds att idx hfr hfa hsrc hnd htgt hlast r hr
    rw [simLoop] at hr
    have hactive_mem : active ∈ steps := List.mem_of_mem_getLast? hlast
    -- facts about this round's attempts
    have hshape := runRound_shape G dp rng active frontier idx
    have hhits := runRound_hits G dp rng active frontier idx
    have hnd2 : (((runRound G dp rng active frontier idx).2.1).map Prod.fst).Nodup :=
      runRound_nodup G dp rng active hE frontier idx hfr
    have hdisj : List.Disjoint (att.map Prod.fst)
        (((runRound G dp rng active frontier idx).2.1).map Prod.fst) := by
      intro x hx hy
      simp only [List.mem_map] at hx hy
      obtain ⟨p, hp, rfl⟩ := hx
      obtain ⟨q, hq, hpq⟩ := hy
      obtain ⟨hqf, _, _, _⟩ := hshape q hq
      rw [hpq] at hqf
      exact (hsrc p hp).2 hqf
    have hndapp : ((att ++ (runRound G dp rng active frontier idx).2.1).map Prod.fst).Nodup := by
      rw [List.map_append]
      exact List.Nodup.append hnd hnd2 hdisj
    have hidx := runRound_idx G dp rng active frontier idx
    split at hr
    · subst hr
      refine ⟨hndapp, ?_, ?_⟩
      · intro p hp
        rcases List.mem_append.mp hp with hp | hp
        · exact htgt p hp
        · obtain ⟨_, hedge, hact, hnin⟩ := hshape p hp
          exact ⟨hedge, by rw [hact]; exact hnin, by rw [hact]; exact hactive_mem⟩
      · simp only [List.length_append]
        omega
    · -- a new round of activations happened
      have hfr2 : ((runRound G dp rng active frontier idx).1.dedup).Nodup :=
        List.nodup_dedup _
      have hfa2 : ∀ u ∈ (runRound G dp rng active frontier idx).1.dedup,
          u ∈ active ∪ (runRound G dp rng active frontier idx).1.dedup.toFinset := by
        intro u hu
        exact Finset.mem_union_right _ (List.mem_toFinset.mpr hu)
      have hsrc2 : ∀ p ∈ att ++ (runRound G dp rng active frontier idx).2.1,
          p.1.1 ∈ active ∪ (runRound G dp rng active frontier idx).1.dedup.toFinset
          ∧ p.1.1 ∉ (runRound G dp rng active frontier idx).1.dedup := by
        intro p hp
        have hpa : p.1.1 ∈ active := by
          rcases List.mem_append.mp hp with hp | hp
          · exact (hsrc p hp).1
          · obtain ⟨hpf, _, _, _⟩ := hshape p hp
            exact hfa _ hpf
        refine ⟨Finset.mem_union_left _ hpa, ?_⟩
        intro hmem
        exact hhits _ (List.mem_dedup.mp hmem) hpa
      have htgt2 : ∀ p ∈ att ++ (runRound G dp rng active frontier idx).2.1,
          p.1 ∈ G.edges ∧ p.1.2 ∉ p.2
          ∧ p.2 ∈ steps ++ [active ∪ (runRound G dp rng active frontier idx).1.dedup.toFinset] := by
        intro p hp
        rcases List.mem_append.mp hp with hp | hp
        · obtain ⟨h1, h2, h3⟩ := htgt p hp
          exact ⟨h1, h2, List.mem_append_left _ h3⟩
        · obtain ⟨_, hedge, hact, hnin⟩ := hshape p hp
          exact ⟨hedge, by rw [hact]; exact hnin,
            by rw [hact]; exact List.mem_append_left _ hactive_mem⟩
      have hlast2 : (steps ++ [active ∪ (runRound G dp rng active frontier idx).1.dedup.toFinset]).getLast?
          = some (active ∪ (runRound G dp rng active frontier idx).1.dedup.toFinset) :=
        List.getLast?_concat _
      obtain ⟨h1, h2, h3⟩ := ih _ _ _ _ _ _ hfr2 hfa2 hsrc2 hndapp htgt2 hlast2 r hr
      refine ⟨h1, h2, ?_⟩
      simp only [List.length_append] at h3
      omega

/-- C4.  In one simulation call, each directed edge is the subject of at
most one activation attempt (the edges in the attempt trace are pairwise
distinct), each attempt consumes exactly one random draw (the rng index
advances by the number of attempts), every attempted edge is an edge of
the graph, and the target of every attempt was not active at the moment
of the attempt (each attempt's recorded active set, one of the history
snapshots, excludes the target). -/
theorem simulate_attempts_once (G : Graph) (seeds : Finset Nat) (ms : Nat)
    (dp : Rat) (rng : Nat → Rat) (idx : Nat)
    (hE : G.edges.Nodup) (h1 : seeds ≠ ∅) (h2 : ∀ s ∈ seeds, s ∈ G.nodes)
    (h3 : 0 ≤ dp) (h4 : dp ≤ 1) :
    ∃ r, independent_cascade G seeds ms dp rng idx = .ok r
      ∧ (r.attempts.map Prod.fst).Nodup
      ∧ (∀ p ∈ r.attempts, p.1 ∈ G.edges ∧ p.1.2 ∉ p.2 ∧ p.2 ∈ r.steps)
      ∧ r.idx = idx + r.attempts.length := by
  refine ⟨_, ic_ok ms rng idx h1 h2 h3 h4, ?_⟩
  obtain ⟨hnd, htgt, hidx⟩ := simLoop_attempts G dp rng hE ms seeds
    (seeds.sort (· ≤ ·)) [seeds] 0 [] idx
    (Finset.sort_nodup _ _)
    (fun u hu => (Finset.mem_sort _).mp hu)
    (fun p hp => absurd hp (List.not_mem_nil p))
    List.nodup_nil
    (fun p hp => absurd hp (List.not_mem_nil p))
    (by simp) _ rfl
  exact ⟨hnd, htgt, by simpa using hidx⟩

end Cascade

namespace Cascade

/-! ### C5: CELF terminates and returns `k` distinct nodes -/

/-- Under valid inputs `estimate_spread` succeeds. -/
lemma estimate_spread_ok (G : Graph) (seedsL : List Nat) (ms : Nat)
    (dp : Rat) (rng : Nat → Rat) (mc idx : Nat)
    (h0 : seedsL ≠ []) (hmem : ∀ s ∈ seedsL, s ∈ G.nodes)
    (h3 : 0 ≤ dp) (h4 : dp ≤ 1) (hmc : mc ≠ 0) :
    ∃ q i2, estimate_spread G seedsL mc ms dp rng idx = .ok (q, i2) := by
  have h1 : seedsL.toFinset ≠ ∅ := by
    rw [Ne, List.toFinset_eq_empty_iff]
    exact h0
  have h2 : ∀ s ∈ seedsL.toFinset, s ∈ G.nodes :=
    fun s hs => hmem s (List.mem_toFinset.mp hs)
  obtain ⟨hlen, i2, hsum⟩ :=
    sumTrials_eq_trialSizes G seedsL.toFinset ms dp rng h1 h2 h3 h4 mc idx
  refine ⟨(trialSizes G seedsL.toFinset ms dp rng mc idx).sum / mc, i2, ?_⟩
  rw [estimate_spread]
  simp only [hsum]
  rw [if_neg hmc]

/-- The initialization phase succeeds on valid inputs and produces one
entry per node, all with stamp `0`. -/
lemma celfInit_ok (G : Graph) (dp : Rat) (mc ms : Nat) (rng : Nat → Rat)
    (h3 : 0 ≤ dp) (h4 : dp ≤ 1) (hmc : mc ≠ 0) :
    ∀ ns pq idx, (∀ n ∈ ns, n ∈ G.nodes) →
      ∃ pq2 i2, celfInit G dp mc ms rng ns pq idx = .ok (pq2, i2)
        ∧ List.Perm (pq2.map Entry.node) (pq.map Entry.node ++ ns)
        ∧ (∀ e ∈ pq2, e ∈ pq ∨ e.stamp = 0) := by
  intro ns
  induction ns with
  | nil =>
    intro pq idx _
    exact ⟨pq, idx, rfl, by simp, fun e he => Or.inl he⟩
  | cons n ns ih =>
    intro pq idx hmem
    obtain ⟨q, i2, hest⟩ := estimate_spread_ok G [n] ms dp rng mc idx (by simp)
      (by
        intro s hs
        rw [List.mem_singleton] at hs
        rw [hs]
        exact hmem n (List.mem_cons_self _ _))
      h3 h4 hmc
    obtain ⟨pq2, i3, heq, hperm, hstamp⟩ :=
      ih (heappush pq ⟨-q, n, 0⟩) i2 (fun m hm => hmem m (List.mem_cons_of_mem _ hm))
    refine ⟨pq2, i3, ?_, ?_, ?_⟩
    · rw [celfInit]
      simp only [hest]
      exact heq
    · refine hperm.trans ?_
      have hp := (heappush_perm pq ⟨-q, n, 0⟩).map Entry.node
      refine (hp.append_right ns).trans ?_
      exact List.perm_middle.symm
    · intro e he
      rcases hstamp e he with he2 | hs
      · rcases heappush_mem.mp he2 with rfl | he3
        · exact Or.inr rfl
        · exact Or.inl he3
      · exact Or.inr hs

/-- Arithmetic of the termination measure for a fresh pop. -/
lemma measure_fresh_lt {K s L sc sc2 : Nat} (hs : s < K) (hsc2 : sc2 ≤ L) :
    (K - (s + 1)) * (L + 1) + sc2 < (K - s) * (L + 1 + 1) + sc := by
  have ha : K - s = (K - (s + 1)) + 1 := by omega
  rw [ha, Nat.succ_mul]
  have h2 : (K - (s + 1)) * (L + 1) ≤ (K - (s + 1)) * (L + 1 + 1) :=
    Nat.mul_le_mul_left _ (by omega)
  linarith

/-- The lazy greedy loop terminates within the measure and maintains the
partition of the graph's nodes between the queue and the seed list. -/
lemma celfLoop_ok (G : Graph) (k : Int) (dp : Rat) (mc ms : Nat)
    (rng : Nat → Rat)
    (h3 : 0 ≤ dp) (h4 : dp ≤ 1) (hmc : mc ≠ 0)
    (hk1 : 1 ≤ k) (hkn : k ≤ (G.nodes.length : Int)) :
    ∀ fuel pq seeds spreadS idx,
      celfMeasure k.toNat seeds pq < fuel →
      List.Perm (pq.map Entry.node ++ seeds) G.nodes →
      seeds.length ≤ k.toNat →
      ∃ (pq2 : List Entry) (s : List Nat) (i2 : Nat),
        celfLoop G k dp mc ms rng fuel pq seeds spreadS idx = some (.ok (s, i2))
        ∧ s.length = k.toNat
        ∧ List.Perm (pq2.map Entry.node ++ s) G.nodes := by
  intro fuel
  induction fuel with
  | zero =>
    intro pq seeds spreadS idx hm _ _
    exact absurd hm (Nat.not_lt_zero _)
  | succ n ih =>
    intro pq seeds spreadS idx hm hperm hlen
    by_cases hsk : seeds.length = k.toNat
    · refine ⟨pq, seeds, idx, ?_, hsk, hperm⟩
      rw [celfLoop.eq_def]
      simp only [if_neg (show ¬ ((seeds.length : Int) < k) by omega)]
    · have hguard : (seeds.length : Int) < k := by omega
      have hlenpq : pq.length + seeds.length = G.nodes.length := by
        have hl := hperm.length_eq
        simpa [List.length_append] using hl
      cases pq with
      | nil =>
        exfalso
        simp only [List.length_nil, Nat.zero_add] at hlenpq
        omega
      | cons e rest =>
        have hlenrest : rest.length + 1 + seeds.length = G.nodes.length := by
          simpa [List.length_cons] using hlenpq
        by_cases hfresh : e.stamp = seeds.length
        · -- fresh pop: accept the node
          have hm2 : celfMeasure k.toNat (seeds ++ [e.node]) rest < n := by
            have hkey : celfMeasure k.toNat (seeds ++ [e.node]) rest <
                celfMeasure k.toNat seeds (e :: rest) := by
              unfold celfMeasure staleCount
              simp only [List.length_append, List.length_singleton,
                List.length_cons]
              exact measure_fresh_lt (by omega) (List.countP_le_length _)
            omega
          have hperm2 : List.Perm (rest.map Entry.node ++ (seeds ++ [e.node]))
              G.nodes := by
            rw [← List.append_assoc]
            refine (List.perm_append_singleton _ _).trans ?_
            simpa using hperm
          obtain ⟨pq2, s2, i2, heq, hslen, hpermOut⟩ :=
            ih rest (seeds ++ [e.node]) (spreadS + -e.negGain) idx hm2 hperm2
              (by simp only [List.length_append, List.length_singleton]; omega)
          refine ⟨pq2, s2, i2, ?_, hslen, hpermOut⟩
          rw [celfLoop, if_pos hguard, if_pos hfresh]
          exact heq
        · -- stale pop: recompute and push back
          have hmemE : ∀ x ∈ seeds ++ [e.node], x ∈ G.nodes := by
            intro x hx
            refine hperm.subset ?_
            rcases List.mem_append.mp hx with hx | hx
            · exact List.mem_append_right _ hx
            · rw [List.mem_singleton] at hx
              subst hx
              refine List.mem_append_left _ ?_
              simp only [List.map_cons]
              exact List.mem_cons_self _ _
          obtain ⟨q, i2, hest⟩ := estimate_spread_ok G (seeds ++ [e.node]) ms dp
            rng mc idx (by simp) hmemE h3 h4 hmc
          have hsc : staleCount seeds.length
              (heappush rest ⟨-(q - spreadS), e.node, seeds.length⟩) =
              staleCount seeds.length rest := by
            unfold staleCount
            rw [List.Perm.countP_congr (heappush_perm _ _) (fun x _ => rfl)]
            rw [List.countP_cons]
            simp
          have hlen2 : (heappush rest ⟨-(q - spreadS), e.node, seeds.length⟩).length
              = rest.length + 1 := heappush_length _ _
          have hm2 : celfMeasure k.toNat seeds
              (heappush rest ⟨-(q - spreadS), e.node, seeds.length⟩) < n := by
            have hsc2 : staleCount seeds.length (e :: rest) =
                staleCount seeds.length rest + 1 := by
              unfold staleCount
              rw [List.countP_cons]
              simp [hfresh]
            unfold celfMeasure at hm ⊢
            rw [hsc, hlen2]
            rw [hsc2] at hm
            simp only [List.length_cons] at hm
            omega
          have hperm2 : List.Perm
              ((heappush rest ⟨-(q - spreadS), e.node, seeds.length⟩).map Entry.node
                ++ seeds) G.nodes := by
            refine List.Perm.trans ?_ hperm
            refine List.Perm.append_right seeds ?_
            have hp := (heappush_perm rest ⟨-(q - spreadS), e.node, seeds.length⟩).map
              Entry.node
            simpa using hp
          obtain ⟨pq2, s2, i3, heq, hslen, hpermOut⟩ :=
            ih _ seeds spreadS i2 hm2 hperm2 hlen
          refine ⟨pq2, s2, i3, ?_, hslen, hpermOut⟩
          rw [celfLoop, if_pos hguard, if_neg hfresh]
          simp only [hest]
          exact heq

/-- C5.  For a graph with at least one node and `1 ≤ k ≤ |nodes|` (valid
probability and trial count), `celf` terminates — a fuel of
`k * (n + 1) + 1` pops suffices — and returns an ordered list of exactly
`k` distinct nodes of the graph; when `k` equals the node count the
returned list is a permutation of the node list, i.e. every node appears
exactly once. -/
theorem celf_selects_k (G : Graph) (k : Int) (dp : Rat) (mc ms : Nat)
    (rng : Nat → Rat) (idx : Nat)
    (hN : G.nodes.Nodup) (hk1 : 1 ≤ k) (hkn : k ≤ (G.nodes.length : Int))
    (h3 : 0 ≤ dp) (h4 : dp ≤ 1) (hmc : 1 ≤ mc) :
    ∃ s i2,
      celf G k dp mc ms rng idx (k.toNat * (G.nodes.length + 1) + 1) =
        some (.ok (s, i2))
      ∧ s.length = k.toNat
      ∧ s.Nodup
      ∧ (∀ x ∈ s, x ∈ G.nodes)
      ∧ (k = (G.nodes.length : Int) → List.Perm s G.nodes) := by
  have hmc0 : mc ≠ 0 := by omega
  obtain ⟨pq, i1, hinit, hperm0, hstamp⟩ :=
    celfInit_ok G dp mc ms rng h3 h4 hmc0 G.nodes [] idx (fun n hn => hn)
  have hperm0' : List.Perm (pq.map Entry.node ++ []) G.nodes := by
    simpa using hperm0
  have hpqlen : pq.length = G.nodes.length := by
    have hl := hperm0.length_eq
    simpa using hl
  have hsc0 : staleCount 0 pq = 0 := by
    unfold staleCount
    rw [List.countP_eq_zero]
    intro e he
    rcases hstamp e he with he2 | hs
    · simp at he2
    · simp [hs]
  have hmeas : celfMeasure k.toNat [] pq < k.toNat * (G.nodes.length + 1) + 1 := by
    unfold celfMeasure
    simp only [List.length_nil, Nat.sub_zero]
    rw [hsc0, hpqlen]
    simp only [Nat.add_zero]
    exact Nat.lt_succ_self _
  obtain ⟨pq2, s, i2, heq, hslen, hperm2⟩ :=
    celfLoop_ok G k dp mc ms rng h3 h4 hmc0 hk1 hkn _ pq [] 0 i1
      hmeas hperm0' (by simp)
  have hnodup : (pq2.map Entry.node ++ s).Nodup := hperm2.symm.nodup hN
  refine ⟨s, i2, ?_, hslen, hnodup.of_append_right, ?_, ?_⟩
  · rw [celf, if_neg (by omega), if_neg (by omega)]
    simp only [hinit]
    exact heq
  · intro x hx
    exact hperm2.subset (List.mem_append_right _ hx)
  · intro hk
    have hlen2 := hperm2.length_eq
    simp only [List.length_append] at hlen2
    have : (pq2.map Entry.node).length = 0 := by omega
    rw [List.length_eq_zero.mp this] at hperm2
    simpa using hperm2

end Cascade

namespace Cascade

/-! ### C7: validation of the CELF selector -/

/-- With an out-of-range default probability, `independent_cascade` fails
with exactly the `default_prob` message whenever the other validations
pass. -/
lemma ic_bad_dp (G : Graph) (seeds : Finset Nat) (ms : Nat) (dp : Rat)
    (rng : Nat → Rat) (idx : Nat)
    (h1 : seeds ≠ ∅) (h2 : ∀ s ∈ seeds, s ∈ G.nodes)
    (hdp : dp < 0 ∨ 1 < dp) :
    independent_cascade G seeds ms dp rng idx =
      .error (.valueError "default_prob must be between 0 and 1") := by
  rw [ic_invalid rng idx (Or.inr (Or.inr hdp))]
  rw [if_neg h1, if_neg (not_not_intro h2)]

/-- With an out-of-range default probability and at least one trial, the
spread estimator fails with the `default_prob` message, raised by the
first simulation before any randomness is consumed. -/
lemma estimate_spread_bad_dp (G : Graph) (seedsL : List Nat) (mc ms : Nat)
    (dp : Rat) (rng : Nat → Rat) (idx : Nat)
    (h0 : seedsL ≠ []) (h2 : ∀ s ∈ seedsL, s ∈ G.nodes)
    (hmc : 1 ≤ mc) (hdp : dp < 0 ∨ 1 < dp) :
    estimate_spread G seedsL mc ms dp rng idx =
      .error (.valueError "default_prob must be between 0 and 1") := by
  obtain ⟨m, rfl⟩ : ∃ m, mc = m + 1 := ⟨mc - 1, by omega⟩
  have hic := ic_bad_dp G seedsL.toFinset ms dp rng idx
    (by
      rw [Ne, List.toFinset_eq_empty_iff]
      exact h0)
    (fun s hs => h2 s (List.mem_toFinset.mp hs)) hdp
  rw [estimate_spread, sumTrials]
  simp only [hic]

/-- C7 (amended).  `celf` fails with a `ValueError` whenever `k < 1` and
whenever `k` exceeds the node count, in both cases before the first
spread estimate; and, provided `trialCount ≥ 1`, whenever the default
probability lies outside `[0, 1]` — that failure is raised inside the
first spread estimate by the simulator's own validation, before any
randomness is consumed, so the result does not depend on the random
stream.  (With `trialCount = 0` the probability check is never reached
and the failure is a `ZeroDivisionError` instead.) -/
theorem celf_validation (G : Graph) (k : Int) (dp : Rat) (mc ms : Nat)
    (rng rng' : Nat → Rat) (idx fuel : Nat) :
    (k < 1 → celf G k dp mc ms rng idx fuel =
      some (.error (.valueError "k must be at least 1")))
    ∧ (1 ≤ k → (G.nodes.length : Int) < k →
        celf G k dp mc ms rng idx fuel =
          some (.error (.valueError ("k (" ++ toString k ++
            ") cannot exceed number of nodes (" ++
            toString G.nodes.length ++ ")"))))
    ∧ (1 ≤ k → k ≤ (G.nodes.length : Int) → 1 ≤ mc → (dp < 0 ∨ 1 < dp) →
        celf G k dp mc ms rng idx fuel =
          some (.error (.valueError "default_prob must be between 0 and 1"))
        ∧ celf G k dp mc ms rng idx fuel = celf G k dp mc ms rng' idx fuel) := by
  refine ⟨?_, ?_, ?_⟩
  · intro hk
    rw [celf, if_pos hk]
  · intro hk1 hk2
    rw [celf, if_neg (by omega), if_pos hk2]
  · intro hk1 hkn hmc hdp
    have key : ∀ rng0 : Nat → Rat, celf G k dp mc ms rng0 idx fuel =
        some (.error (.valueError "default_prob must be between 0 and 1")) := by
      intro rng0
      rw [celf, if_neg (by omega), if_neg (by omega)]
      cases hn : G.nodes with
      | nil =>
        exfalso
        rw [hn] at hkn
        simp at hkn
        omega
      | cons n0 ns =>
        rw [celfInit]
        have hest := estimate_spread_bad_dp G [n0] mc ms dp rng0 idx (by simp)
          (by
            intro s hs
            rw [List.mem_singleton] at hs
            rw [hs, hn]
            exact List.mem_cons_self _ _)
          hmc hdp
        simp only [hest]
    exact ⟨key rng, (key rng).trans (key rng').symm⟩

end Cascade

namespace Cascade

/-! ### C7's failing input: `trialCount = 0` bypasses the probability check -/

/-- C7 counterexample.  On a one-node graph with `k = 1` (both `k`
validations pass) and `default_prob = 2` — outside `[0, 1]` — but
`trialCount = 0`, `celf` fails with `ZeroDivisionError`, not with a
`ValueError` (the spec's `InvalidArgument`): the probability check lives
inside the simulator, which is never reached when the trial loop is
empty. -/
theorem celf_bad_dp_zero_trials_counterexample :
    celf oneNodeGraph 1 2 0 0 rngZero 0 1 = some (.error .zeroDivisionError)
    ∧ ∀ msg, PyErr.zeroDivisionError ≠ PyErr.valueError msg :=
  ⟨rfl, fun _ h => PyErr.noConfusion h⟩

/-! ### C2: the deprecated CELF never judges a stale-gained entry fresh -/

/-- Entries produced by the deprecated initialization carry stamp 0 (and
ghost field `against = 0`): they are gains computed against the empty
seed set. -/
lemma celfDepInit_entries (G : Graph) (dp : Rat) (ms : Nat)
    (rng : Nat → Rat) :
    ∀ ns pq idx pq2 i2,
      celfDepInit G dp ms rng ns pq idx = .ok (pq2, i2) →
      ∀ e ∈ pq2, e ∈ pq ∨ e.stamp = 0 := by
  intro ns
  induction ns with
  | nil =>
    intro pq idx pq2 i2 h e he
    rw [celfDepInit] at h
    cases h
    exact Or.inl he
  | cons n ns ih =>
    intro pq idx pq2 i2 h e he
    rw [celfDepInit] at h
    cases hic : independent_cascade G {n} ms dp rng idx with
    | error e2 =>
      simp only [hic] at h
      exact Except.noConfusion h
    | ok r =>
      simp only [hic] at h
      rcases ih _ _ _ _ h e he with hmem | hs
      · rcases dheappush_mem.mp hmem with rfl | hmem2
        · exact Or.inr rfl
        · exact Or.inl hmem2
      · exact Or.inr hs

/-- Trace soundness of the deprecated loop: whatever happens, no accepted
entry ever has its gain computed against a seed set strictly smaller than
the seed list at the moment of acceptance.  The invariant: either we are
at the very first pop (`iter_num = 1`, no seeds, all stamps 0), or every
entry's stamp is at least two behind `iter_num` — and then no entry can
ever be judged fresh again. -/
lemma celfDepLoop_trace (G : Graph) (k : Int) (dp : Rat) (rng : Nat → Rat) :
    ∀ fuel pq seeds iterNum idx acc,
      ((iterNum = 1 ∧ seeds = [] ∧ ∀ e ∈ pq, e.stamp = 0)
        ∨ (∀ e ∈ pq, e.stamp + 2 ≤ iterNum)) →
      (∀ p ∈ acc, ¬ p.1 < p.2) →
      ∀ p ∈ (celfDepLoop G k dp rng fuel pq seeds iterNum idx acc).2,
        ¬ p.1 < p.2 := by
  intro fuel
  induction fuel with
  | zero =>
    intro pq seeds iterNum idx acc _ hacc p hp
    rw [celfDepLoop] at hp
    exact hacc p hp
  | succ n ih =>
    intro pq seeds iterNum idx acc hinv hacc p hp
    by_cases hguard : (seeds.length : Int) < k
    · cases pq with
      | nil =>
        rw [celfDepLoop, if_pos hguard] at hp
        exact hacc p hp
      | cons e rest =>
        rw [celfDepLoop, if_pos hguard] at hp
        by_cases hfresh : e.stamp + 1 = iterNum
        · rw [if_pos hfresh] at hp
          rcases hinv with ⟨hit, hseeds, hstamps⟩ | hstamps
          · refine ih rest (seeds ++ [e.node]) (iterNum + 1) idx
              (acc ++ [(e.against, seeds.length)]) ?_ ?_ p hp
            · right
              intro e2 he2
              have := hstamps e2 (List.mem_cons_of_mem _ he2)
              omega
            · intro q hq
              rcases List.mem_append.mp hq with hq | hq
              · exact hacc q hq
              · rw [List.mem_singleton] at hq
                subst hq
                rw [hseeds]
                simp
          · exfalso
            have := hstamps e (List.mem_cons_self _ _)
            omega
        · rw [if_neg hfresh] at hp
          rcases hinv with ⟨hit, hseeds, hstamps⟩ | hstamps
          · exfalso
            have := hstamps e (List.mem_cons_self _ _)
            omega
          · have hiter : 2 ≤ iterNum := by
              have := hstamps e (List.mem_cons_self _ _)
              omega
            cases hic : independent_cascade G (seeds ++ [e.node]).toFinset 99999
                dp rng idx with
            | error err =>
              simp only [hic] at hp
              exact hacc p hp
            | ok r1 =>
              simp only [hic] at hp
              cases hic2 : independent_cascade G seeds.toFinset 99999
                  dp rng r1.idx with
              | error err =>
                simp only [hic2] at hp
                exact hacc p hp
              | ok r2 =>
                simp only [hic2] at hp
                refine ih _ seeds (iterNum + 1) r2.idx acc ?_ hacc p hp
                right
                intro e2 he2
                rcases dheappush_mem.mp he2 with rfl | he3
                · simp only []
                  omega
                · have := hstamps e2 (List.mem_cons_of_mem _ he3)
                  omega
    · rw [celfDepLoop.eq_def] at hp
      simp only [if_neg hguard] at hp
      exact hacc p hp

/-- C2 counterexample.  There is no graph, no `k`, and no execution
(random stream, starting index, fuel) of `_celf_deprecated` in which an
entry whose gain was computed against a strictly smaller seed set than
the currently selected one is judged fresh and accepted: the accept trace
never contains a pair `(computed-against size, current size)` with the
first component smaller.  (Only the very first pop is ever judged fresh,
and its gain was computed against the empty seed set — the current one.) -/
theorem celf_deprecated_no_stale_accept :
    ¬ ∃ (G : Graph) (k : Int) (dp : Rat) (ms : Nat) (rng : Nat → Rat)
        (idx fuel : Nat) (p : Nat × Nat),
        p ∈ (celf_deprecated G k dp ms rng idx fuel).2 ∧ p.1 < p.2 := by
  rintro ⟨G, k, dp, ms, rng, idx, fuel, p, hp, hlt⟩
  rw [celf_deprecated] at hp
  split_ifs at hp with h1 h2 h3
  · simp at hp
  · simp at hp
  case neg =>
    simp at hp
  case pos =>
    cases hinit : celfDepInit G dp ms rng G.nodes [] idx with
    | error e =>
      simp only [hinit] at hp
      simp at hp
    | ok pi =>
      simp only [hinit] at hp
      refine absurd hlt (celfDepLoop_trace G k dp rng fuel pi.1 [] 1 pi.2 []
        ?_ (by simp) p ?_)
      · left
        refine ⟨rfl, rfl, ?_⟩
        intro e he
        rcases celfDepInit_entries G dp ms rng G.nodes [] idx pi.1 pi.2
            (by rw [hinit]) e he with h | h
        · simp at h
        · exact h
      · exact hp

end Cascade

namespace Cascade

/-- Under valid probability arguments the deprecated initialization
succeeds, producing one stamp-0 entry per node. -/
lemma celfDepInit_ok (G : Graph) (dp : Rat) (ms : Nat) (rng : Nat → Rat)
    (h3 : 0 ≤ dp) (h4 : dp ≤ 1) :
    ∀ ns pq idx, (∀ n ∈ ns, n ∈ G.nodes) →
      ∃ pq2 i2, celfDepInit G dp ms rng ns pq idx = .ok (pq2, i2)
        ∧ pq2.length = pq.length + ns.length
        ∧ (∀ e ∈ pq2, e ∈ pq ∨ (e.stamp = 0 ∧ e.node ∈ ns)) := by
  intro ns
  induction ns with
  | nil =>
    intro pq idx _
    exact ⟨pq, idx, rfl, by simp, fun e he => Or.inl he⟩
  | cons n ns ih =>
    intro pq idx hmem
    obtain ⟨r, hic⟩ : ∃ r, independent_cascade G {n} ms dp rng idx = .ok r :=
      ⟨_, ic_ok ms rng idx (by simp)
        (by
          intro s hs
          rw [Finset.mem_singleton] at hs
          rw [hs]
          exact hmem n (List.mem_cons_self _ _)) h3 h4⟩
    obtain ⟨pq2, i2, heq, hlen, hprop⟩ :=
      ih (dheappush pq ⟨-(r.active.card : Rat), n, 0, 0⟩) r.idx
        (fun m hm => hmem m (List.mem_cons_of_mem _ hm))
    refine ⟨pq2, i2, ?_, ?_, ?_⟩
    · rw [celfDepInit]
      simp only [hic]
      exact heq
    · rw [hlen, dheappush_length]
      simp only [List.length_cons]
      omega
    · intro e he
      rcases hprop e he with hmem2 | ⟨hs, hn⟩
      · rcases dheappush_mem.mp hmem2 with rfl | hmem3
        · exact Or.inr ⟨rfl, List.mem_cons_self _ _⟩
        · exact Or.inl hmem3
      · exact Or.inr ⟨hs, List.mem_cons_of_mem _ hn⟩

/-- The deprecated loop never terminates once two or more seeds are
requested: after the first (always fresh) pop, every entry's stamp stays
at least two behind `iter_num`, so no second seed is ever accepted and
the loop runs out of any finite fuel. -/
lemma celfDepLoop_diverges (G : Graph) (k : Int) (dp : Rat)
    (rng : Nat → Rat)
    (h3 : 0 ≤ dp) (h4 : dp ≤ 1) (hk : 2 ≤ k)
    (hkn : k ≤ (G.nodes.length : Int)) :
    ∀ fuel pq seeds iterNum idx acc,
      ((iterNum = 1 ∧ seeds = []
          ∧ (∀ e ∈ pq, e.stamp = 0 ∧ e.node ∈ G.nodes)
          ∧ pq.length = G.nodes.length)
        ∨ (2 ≤ iterNum ∧ seeds.length = 1 ∧ (∀ x ∈ seeds, x ∈ G.nodes)
          ∧ (∀ e ∈ pq, e.stamp + 2 ≤ iterNum ∧ e.node ∈ G.nodes)
          ∧ pq.length + 1 = G.nodes.length)) →
      (celfDepLoop G k dp rng fuel pq seeds iterNum idx acc).1 = none := by
  have hn2 : 2 ≤ G.nodes.length := by omega
  intro fuel
  induction fuel with
  | zero =>
    intro pq seeds iterNum idx acc _
    rw [celfDepLoop]
  | succ n ih =>
    intro pq seeds iterNum idx acc hinv
    have hslen : seeds.length ≤ 1 := by
      rcases hinv with ⟨_, hs, _, _⟩ | ⟨_, hs, _, _, _⟩
      · rw [hs]
        simp
      · omega
    have hguard : (seeds.length : Int) < k := by omega
    cases pq with
    | nil =>
      exfalso
      rcases hinv with ⟨_, _, _, hlen⟩ | ⟨_, _, _, _, hlen⟩ <;>
        simp only [List.length_nil] at hlen <;> omega
    | cons e rest =>
      rcases hinv with ⟨hit, hseeds, hstamps, hlen⟩ |
        ⟨hit, hslen1, hsmem, hstamps, hlen⟩
      · -- first pop: always fresh
        have he0 := hstamps e (List.mem_cons_self _ _)
        have hfresh : e.stamp + 1 = iterNum := by omega
        rw [celfDepLoop, if_pos hguard, if_pos hfresh]
        refine ih rest (seeds ++ [e.node]) (iterNum + 1) idx _ ?_
        right
        subst hseeds
        refine ⟨by omega, by simp, ?_, ?_, ?_⟩
        · intro x hx
          simp only [List.nil_append, List.mem_singleton] at hx
          rw [hx]
          exact he0.2
        · intro e2 he2
          have h2 := hstamps e2 (List.mem_cons_of_mem _ he2)
          exact ⟨by omega, h2.2⟩
        · simp only [List.length_cons] at hlen
          omega
      · -- later pops: always stale
        have he2 := hstamps e (List.mem_cons_self _ _)
        have hstale : ¬ (e.stamp + 1 = iterNum) := by omega
        rw [celfDepLoop, if_pos hguard, if_neg hstale]
        have hne : seeds ≠ [] := by
          intro h
          rw [h] at hslen1
          simp at hslen1
        obtain ⟨r1, hic1⟩ : ∃ r,
            independent_cascade G (seeds ++ [e.node]).toFinset 99999 dp rng idx
              = .ok r :=
          ⟨_, ic_ok 99999 rng idx
            (by
              intro h
              have hmem0 : e.node ∈ (seeds ++ [e.node]).toFinset := by simp
              rw [h] at hmem0
              simp at hmem0)
            (by
              intro s hs
              rw [List.mem_toFinset] at hs
              rcases List.mem_append.mp hs with hs | hs
              · exact hsmem s hs
              · rw [List.mem_singleton] at hs
                rw [hs]
                exact he2.2) h3 h4⟩
        simp only [hic1]
        obtain ⟨r2, hic2⟩ : ∃ r,
            independent_cascade G seeds.toFinset 99999 dp rng r1.idx = .ok r :=
          ⟨_, ic_ok 99999 rng r1.idx
            (by
              rw [Ne, List.toFinset_eq_empty_iff]
              exact hne)
            (fun s hs => hsmem s (List.mem_toFinset.mp hs)) h3 h4⟩
        simp only [hic2]
        refine ih _ seeds (iterNum + 1) r2.idx acc ?_
        right
        refine ⟨by omega, hslen1, hsmem, ?_, ?_⟩
        · intro e3 he3
          rcases dheappush_mem.mp he3 with rfl | he4
          · exact ⟨by simp only []; omega, he2.2⟩
          · have h3b := hstamps e3 (List.mem_cons_of_mem _ he4)
            exact ⟨by omega, h3b.2⟩
        · rw [dheappush_length]
          simp only [List.length_cons] at hlen
          omega

/-- C2 (amended).  For every valid call of `_celf_deprecated` with
`k ≥ 2`, the greedy loop never terminates, for any amount of fuel: after
the single always-fresh first pop, every popped entry is judged stale
(never fresh), so a second seed is never accepted. -/
theorem celf_deprecated_diverges (G : Graph) (k : Int) (dp : Rat)
    (ms : Nat) (rng : Nat → Rat) (idx : Nat)
    (hk : 2 ≤ k) (hkn : k ≤ (G.nodes.length : Int))
    (h3 : 0 ≤ dp) (h4 : dp ≤ 1) :
    ∀ fuel, (celf_deprecated G k dp ms rng idx fuel).1 = none := by
  intro fuel
  rw [celf_deprecated, if_neg (by omega), if_neg (by omega),
    if_neg (not_not_intro ⟨h3, h4⟩)]
  obtain ⟨pq2, i2, hinit, hlen, hprop⟩ :=
    celfDepInit_ok G dp ms rng h3 h4 G.nodes [] idx (fun n hn => hn)
  simp only [hinit]
  apply celfDepLoop_diverges G k dp rng h3 h4 hk hkn
  left
  refine ⟨rfl, rfl, ?_, by simpa using hlen⟩
  intro e he
  rcases hprop e he with h | ⟨hs, hn⟩
  · simp at h
  · exact ⟨hs, hn⟩

end Cascade

namespace Cascade

/-! ### Concrete witnesses -/

/-- Witness for the CELF step characterization at a concrete state. -/
theorem celf_loop_step_witness :
    celfLoop oneNodeGraph 1 0 1 0 rngZero (0 + 1) [⟨-1, 0, 0⟩] [] 0 0 =
      celfLoop oneNodeGraph 1 0 1 0 rngZero 0 []
        ([] ++ [(⟨-1, 0, 0⟩ : Entry).node]) (0 + -(⟨-1, 0, 0⟩ : Entry).negGain) 0 :=
  (celf_loop_step oneNodeGraph 1 0 1 0 rngZero 0 ⟨-1, 0, 0⟩ [] [] 0 0
    (by decide)).1 rfl

/-- Witness: on two isolated nodes with `k = 2` the deprecated CELF runs
out of any fuel. -/
theorem celf_deprecated_diverges_witness :
    (celf_deprecated twoNodeGraph 2 0 0 rngZero 0 5).1 = none :=
  celf_deprecated_diverges twoNodeGraph 2 0 0 rngZero 0 (by decide) (by decide)
    (by decide) (by decide) 5

/-- Witness for the history-shape theorem on a concrete simulation. -/
theorem simulate_history_witness :
    ∃ r, independent_cascade oneNodeGraph {0} 0 0 rngZero 0 = .ok r
      ∧ {0} ⊆ r.active
      ∧ r.steps.head? = some {0}
      ∧ List.Chain' (· ⊆ ·) r.steps
      ∧ r.steps.getLast? = some r.active
      ∧ r.steps.length = 1 + r.rounds
      ∧ r.rounds ≤ 0 :=
  simulate_history oneNodeGraph {0} 0 0 rngZero 0 (by decide) (by decide)
    (by decide) (by decide)

/-- Witness for the attempt-trace theorem on a concrete simulation. -/
theorem simulate_attempts_once_witness :
    ∃ r, independent_cascade oneNodeGraph {0} 0 0 rngZero 0 = .ok r
      ∧ (r.attempts.map Prod.fst).Nodup
      ∧ (∀ p ∈ r.attempts, p.1 ∈ oneNodeGraph.edges ∧ p.1.2 ∉ p.2 ∧ p.2 ∈ r.steps)
      ∧ r.idx = 0 + r.attempts.length :=
  simulate_attempts_once oneNodeGraph {0} 0 0 rngZero 0 (by decide)
    (by decide) (by decide) (by decide) (by decide)

/-- Witness for the CELF selection theorem on a one-node graph. -/
theorem celf_selects_k_witness :
    ∃ s i2,
      celf oneNodeGraph 1 0 1 0 rngZero 0
          ((1 : Int).toNat * (oneNodeGraph.nodes.length + 1) + 1) =
        some (.ok (s, i2))
      ∧ s.length = (1 : Int).toNat
      ∧ s.Nodup
      ∧ (∀ x ∈ s, x ∈ oneNodeGraph.nodes)
      ∧ ((1 : Int) = (oneNodeGraph.nodes.length : Int) →
          List.Perm s oneNodeGraph.nodes) :=
  celf_selects_k oneNodeGraph 1 0 1 0 rngZero 0 (by decide) (by decide)
    (by decide) (by decide) (by decide) (by decide)

/-- Witness: the validation theorem applied to an empty seed set. -/
theorem simulate_invalid_argument_iff_witness :
    ∃ msg, independent_cascade oneNodeGraph ∅ 0 0 rngZero 0 =
      .error (.valueError msg) :=
  (simulate_invalid_argument_iff oneNodeGraph ∅ 0 0 rngZero rngOne 0).1.mpr
    (Or.inl rfl)

/-- Witness: with one trial and `default_prob = 2`, `celf` reports the
probability error independently of the random stream. -/
theorem celf_validation_witness :
    celf oneNodeGraph 1 2 1 0 rngZero 0 5 =
      some (.error (.valueError "default_prob must be between 0 and 1"))
    ∧ celf oneNodeGraph 1 2 1 0 rngZero 0 5 = celf oneNodeGraph 1 2 1 0 rngOne 0 5 :=
  (celf_validation oneNodeGraph 1 2 1 0 rngZero rngOne 0 5).2.2 (by decide)
    (by decide) (by decide) (Or.inr (by decide))

/-- Witness for the mean theorem on a concrete estimate. -/
theorem estimate_spread_is_mean_witness :
    (trialSizes oneNodeGraph ([0] : List Nat).toFinset 0 0 rngZero 1 0).length = 1
    ∧ ∃ i2, estimate_spread oneNodeGraph [0] 1 0 0 rngZero 0 =
        .ok ((trialSizes oneNodeGraph ([0] : List Nat).toFinset 0 0 rngZero 1 0).sum / 1, i2) :=
  estimate_spread_is_mean oneNodeGraph [0] 1 0 0 rngZero 0 (by decide)
    (by decide) (by decide) (by decide) (by decide)

/-- Witness: a missing-attribute simulation succeeds. -/
theorem simulate_missing_attribute_witness :
    ∃ r, independent_cascade oneNodeGraph {0} 0 0 rngZero 0 = .ok r :=
  (simulate_missing_attribute oneNodeGraph {0} 0 0 rngZero 0).2.2
    (by decide) (by decide) (by decide) (by decide)

/-- Witness: with one trial the division never raises. -/
theorem estimate_spread_trial_count_witness :
    estimate_spread oneNodeGraph [0] 1 0 0 rngZero 0 ≠
      .error .zeroDivisionError :=
  (estimate_spread_trial_count oneNodeGraph [0] 0 0 rngZero 0 1).2
    (by decide)

end Cascade
